import Mathlib

/-!
Verification of the iterator-lowering subsystem found in
src/numba/targets/iterators.py.

The Python file builds LLVM IR at compile time; what we embed here is the
runtime behaviour of the code it generates.  A source iterator is modelled
as a state machine: a state of type sigma together with a step function that
advances the state and produces one iteration result.  An iteration result
is Valid (carrying a value), Exhausted, or a propagated failure carrying the
low-level status record of the call convention.

Pieces that the file uses but that live in numba.targets.imputils (not part
of the sources under verification) are modelled from the spec where noted:
call_iternext (which checks the callee status after every source call and
propagates a failure immediately), impl_ret_borrowed / impl_ret_new_ref
(ownership tags on returned values) and the generator call convention
(return_status_propagate).
-/

namespace NumbaIterators

/-- Low-level status record of the call convention, as consumed by the
generator iternext implementation (fields is_ok, is_stop_iteration,
is_error of the resume status).  Modelled from the spec: the Status value
itself is produced by the call convention in numba.targets, outside the
verified sources. -/
structure Status where
  is_ok : Bool
  is_stop_iteration : Bool
  is_error : Bool
deriving DecidableEq

/-- Result of one iternext call: Valid(value), Exhausted, or a propagated
failure carrying the offending status (spec section 3, IterationResult). -/
inductive IterRes (α : Type) where
  | valid (v : α)
  | exhausted
  | failure (status : Status)
deriving DecidableEq

/-- Mirrors srcres.is_valid() in the generated code. -/
def isValidRes : IterRes α → Bool
  | IterRes.valid _ => true
  | _ => false

/-- True exactly on a propagated failure. -/
def isFailure : IterRes α → Bool
  | IterRes.failure _ => true
  | _ => false

/-- Mirrors srcres.yielded_value(): the value slot is only meaningful when
the result is valid, so we model it as an Option. -/
def yieldedValue : IterRes α → Option α
  | IterRes.valid v => some v
  | _ => none

/-- A source iterator: its current state together with its step function
(the iternext implementation of its concrete type). -/
structure Src (σ α : Type) where
  st : σ
  step : σ → σ × IterRes α

/-- Modelled from the spec: call_iternext (numba.targets.imputils) invokes
the iternext implementation of the source type on the source value and
hands back the updated source together with the result; when the callee
signals an error status the caller propagates it immediately (spec
sections 4.3 and 7), which the combinator embeddings below encode by
returning the failure as soon as it is seen. -/
def call_iternext (s : Src σ α) : Src σ α × IterRes α :=
  let r := s.step s.st
  ({ st := r.1, step := s.step }, r.2)

/-- The source after exactly one step. -/
def stepSrc (s : Src σ α) : Src σ α :=
  (call_iternext s).1

/-- Ownership tag on a returned value.  Modelled from the spec:
impl_ret_borrowed returns the value as a borrowed alias, impl_ret_new_ref
returns it as a new owned instance (spec sections 4.1 and 9). -/
inductive RetKind (α : Type) where
  | borrowed (v : α)
  | newref (v : α)
deriving DecidableEq

/-- The value carried by a RetKind. -/
def RetKind.val : RetKind α → α
  | RetKind.borrowed v => v
  | RetKind.newref v => v

/-- Embeds iterator_getiter (iterators.py lines 11-15): getiter on a value
that is already an iterator returns that same value through
impl_ret_borrowed. -/
def iterator_getiter (it : σ) : RetKind σ :=
  RetKind.borrowed it

/-- Two's complement wrap-around of the 64-bit signed machine integer
types.intp (the pointer-sized integer the lowered code targets): the
representative of z in the interval from -(2 ^ 63) up to 2 ^ 63 - 1.
builder.add on intp values wraps this way, and so does a cast of a wider
integer value to intp. -/
def wrapIntp (z : Int) : Int :=
  (z + 2 ^ 63) % 2 ^ 64 - 2 ^ 63

/-- State of an enumerate value (iterators.py make_enumerate_object):
a counter cell holding a types.intp value (an Int kept in the wrapped
intp range by every write) and the wrapped source iterator. -/
structure EnumerateState (σ : Type) where
  count : Int
  iter : σ
deriving DecidableEq

/-- Embeds make_enumerate_object (iterators.py lines 29-55).  The one
argument form uses the constant 0 as starting value; the two argument form
casts the supplied integer to intp, which wraps a wider value into the
intp range (embedded as wrapIntp).  The source iterable is turned into an iterator via call_getiter;
for a source that is already an iterator this is iterator_getiter, whose
borrowed value is the source itself. -/
def make_enumerate_object (src : σ) (start : Option Int) : EnumerateState σ :=
  match start with
  | none => { count := 0, iter := (iterator_getiter src).val }
  | some s0 => { count := wrapIntp s0, iter := (iterator_getiter src).val }

/-- Embeds iternext_enumerate (iterators.py lines 57-77): load the counter,
store back counter plus one (a wrapping intp add, embedded as wrapIntp of
the unbounded sum), then call the source via call_iternext; on a
valid source result yield the pair of the original counter value and the
source value; on an exhausted source report exhausted; a propagated failure
of the source call is forwarded at once (the counter store has already
happened).  The step function of the source type is passed explicitly. -/
def iternext_enumerate (step : σ → σ × IterRes α) (e : EnumerateState σ) :
    EnumerateState σ × IterRes (Int × α) :=
  let count := e.count
  let ncount := wrapIntp (count + 1)
  let e2 : EnumerateState σ := { count := ncount, iter := e.iter }
  let sr := step e2.iter
  let e3 : EnumerateState σ := { count := e2.count, iter := sr.1 }
  match sr.2 with
  | IterRes.valid v => (e3, IterRes.valid (count, v))
  | IterRes.exhausted => (e3, IterRes.exhausted)
  | IterRes.failure stc => (e3, IterRes.failure stc)

/-- Embeds make_zip_object (iterators.py lines 91-105): getiter is called on
every argument in order and the resulting iterators are stored in source
order.  Sources that are already iterators come back unchanged. -/
def make_zip_object (args : List (Src σ α)) : List (Src σ α) :=
  args

/-- The source loop of iternext_zip (iterators.py lines 122-128): each
source is advanced exactly once via call_iternext, in source order; the
combined validity is accumulated with a boolean and; the yielded slot of
every source is collected in order.  A propagated failure of a source call
aborts the round at once (Sum.inr carries the offending status), so later
sources are not invoked. -/
def zipLoop : List (Src σ α) → (List (Src σ α) × Bool × List (Option α)) ⊕ Status
  | [] => Sum.inl ([], true, [])
  | s :: rest =>
    let c := call_iternext s
    match c.2 with
    | IterRes.failure stc => Sum.inr stc
    | r =>
      match zipLoop rest with
      | Sum.inr stc => Sum.inr stc
      | Sum.inl (rs, v, acc) =>
        Sum.inl (c.1 :: rs, isValidRes r && v, yieldedValue r :: acc)

/-- Embeds iternext_zip (iterators.py lines 107-132): with zero sources the
result is exhausted immediately; otherwise every source is advanced once in
order, the result is valid with the tuple of yielded values exactly when
every source was valid, and exhausted otherwise.  A propagated failure from
any source call is forwarded unchanged (the partially advanced states are
not observable after a propagation, so the original sources are returned in
that case). -/
def iternext_zip (srcs : List (Src σ α)) : List (Src σ α) × IterRes (List α) :=
  if srcs.isEmpty then (srcs, IterRes.exhausted)
  else
    match zipLoop srcs with
    | Sum.inr stc => (srcs, IterRes.failure stc)
    | Sum.inl (rs, v, acc) =>
      (rs, if v then IterRes.valid (acc.filterMap id) else IterRes.exhausted)

/-- Instrumented form of zipLoop: identical computation, but additionally
records the index of every source on which call_iternext is invoked, in
invocation order, starting from index i. -/
def zipLoopEvents (i : Nat) :
    List (Src σ α) → ((List (Src σ α) × Bool × List (Option α)) ⊕ Status) × List Nat
  | [] => (Sum.inl ([], true, []), [])
  | s :: rest =>
    let c := call_iternext s
    match c.2 with
    | IterRes.failure stc => (Sum.inr stc, [i])
    | r =>
      match zipLoopEvents (i + 1) rest with
      | (Sum.inr stc, evs) => (Sum.inr stc, i :: evs)
      | (Sum.inl (rs, v, acc), evs) =>
        (Sum.inl (c.1 :: rs, isValidRes r && v, yieldedValue r :: acc), i :: evs)

/-- Instrumented form of iternext_zip: same result, together with the list
of source indices on which call_iternext was invoked this round, in
invocation order. -/
def iternext_zip_events (srcs : List (Src σ α)) :
    (List (Src σ α) × IterRes (List α)) × List Nat :=
  if srcs.isEmpty then ((srcs, IterRes.exhausted), [])
  else
    match zipLoopEvents 0 srcs with
    | (Sum.inr stc, evs) => ((srcs, IterRes.failure stc), evs)
    | (Sum.inl (rs, v, acc), evs) =>
      ((rs, if v then IterRes.valid (acc.filterMap id) else IterRes.exhausted), evs)

/-- Embeds the result mapping of the generator iternext implementation
(iterators.py lines 138-157).  The generated code is three sequential
conditional blocks over the resume status: if is_ok, set the result valid
and yield the value; if is_stop_iteration, set the result exhausted; if
is_error and not is_stop_iteration, return through the status propagation
mechanism of the call convention (modelled from the spec:
return_status_propagate bypasses the ordinary result channel, which we
encode as the distinguished failure variant).  A later block overrides an
earlier write to the result slots; none of the three firing leaves the
result unset, modelled as none. -/
def genResult (stc : Status) (retval : α) : Option (IterRes α) :=
  let r : Option (IterRes α) := none
  let r := if stc.is_ok then some (IterRes.valid retval) else r
  let r := if stc.is_stop_iteration then some IterRes.exhausted else r
  if stc.is_error && !stc.is_stop_iteration then some (IterRes.failure stc) else r

/-- Embeds iternext of a generator value (iterators.py lines 138-157): the
bound resume procedure is invoked once, producing an updated generator
state, a status and a return value slot; the status is mapped to the
protocol result by genResult. -/
def iternext_generator (resume : γ → γ × Status × α) (g : γ) :
    γ × Option (IterRes α) :=
  let r := resume g
  (r.1, genResult r.2.1 r.2.2)

/-- A list-backed source iterator: yields the elements of the list in order
and is exhausted afterwards. -/
def listStep : List α → List α × IterRes α
  | [] => ([], IterRes.exhausted)
  | x :: xs => (xs, IterRes.valid x)

/-- A list packaged as a source iterator. -/
def listSrc (L : List α) : Src (List α) α :=
  { st := L, step := listStep }

/-- The loop-lowering driver of the spec (section 2): call iternext
repeatedly, collecting yielded values, until the result is not valid; the
final non-valid result is returned alongside.  Fuel bounds the number of
calls; none means the fuel ran out before the iterator stopped. -/
def runIter (step : s → s × IterRes α) : Nat → s → Option (List α × IterRes α)
  | 0, _ => none
  | fuel + 1, st =>
    let r := step st
    match r.2 with
    | IterRes.valid v => (runIter step fuel r.1).map (fun p => (v :: p.1, p.2))
    | _ => some ([], r.2)

/-- The minimum of the lengths of a nonempty list of lists (value on the
empty list irrelevant to its uses). -/
def minLen : List (List α) → Nat
  | [] => 0
  | [L] => L.length
  | L :: rest => min L.length (minLen rest)

/-- Specification-side description of the pairs the indexed combinator must
yield over source S with start s0: the pair (s0 + i, S[i]) for each index i
of S, in order.  The default d is never reached at in-range indices. -/
def enumExpected (s0 : Int) (d : α) (S : List α) : List (Int × α) :=
  (List.range S.length).map (fun i => (s0 + Int.ofNat i, S.getD i d))

/-- Specification-side description of the tuples the lockstep combinator
must yield over sources Ls: for each i below the minimum length, the list
of the i-th element of every source in source order. -/
def zipExpected (d : α) (Ls : List (List α)) : List (List α) :=
  (List.range (minLen Ls)).map (fun i => Ls.map (fun L => L.getD i d))

/-- C7: getiter applied to a value that already satisfies the Iterator
capability returns that same value as a borrowed alias (no new owned
instance), and the iternext sequence observed through the returned value is
identical, same yielded values and same exhaustion point, to calling
iternext directly on the original. -/
theorem getiter_on_iterator_identity (step : σ → σ × IterRes α) (fuel : Nat) (it : σ) :
    iterator_getiter it = RetKind.borrowed it ∧
    runIter step fuel (iterator_getiter it).val = runIter step fuel it :=
  ⟨rfl, rfl⟩

/-- C8: the lockstep combinator constructed over zero sources returns
Exhausted on every iternext call, including the very first, leaving its
state unchanged, and a full run yields no Valid result at all. -/
theorem zip_zero_sources_exhausted (σ α : Type) (fuel : Nat) :
    iternext_zip (make_zip_object ([] : List (Src σ α))) = ([], IterRes.exhausted) ∧
    runIter iternext_zip (fuel + 1) (make_zip_object ([] : List (Src σ α))) =
      some ([], IterRes.exhausted) :=
  ⟨rfl, rfl⟩

/-- C9: the one argument form of the indexed combinator builds exactly the
same state as the two argument form with explicit start 0, so the observed
iternext sequences coincide for any fuel. -/
theorem enumerate_default_start (it : σ) (step : σ → σ × IterRes α) (fuel : Nat) :
    make_enumerate_object it none = make_enumerate_object it (some 0) ∧
    runIter (iternext_enumerate step) fuel (make_enumerate_object it none) =
      runIter (iternext_enumerate step) fuel (make_enumerate_object it (some 0)) := by
  have h : make_enumerate_object it none = make_enumerate_object it (some 0) := by
    simp only [make_enumerate_object]
    rw [show wrapIntp 0 = (0 : Int) from by decide]
  exact ⟨h, by rw [h]⟩

theorem wrapIntp_eq_self (z : Int) (h1 : -(2 ^ 63) ≤ z) (h2 : z < 2 ^ 63) :
    wrapIntp z = z := by
  unfold wrapIntp
  have h3 : (0 : Int) ≤ z + 2 ^ 63 := by omega
  have h4 : z + 2 ^ 63 < 2 ^ 64 := by omega
  rw [Int.emod_eq_of_lt h3 h4]
  omega

/-- Counterexample to C6 as stated: the counter cell is a wrapping
types.intp, so at counter value 2 ^ 63 - 1 the stored value is the wrapped
-(2 ^ 63), not the unbounded count plus one. -/
theorem enumerate_counter_wraps_at_intp_max :
    (iternext_enumerate listStep
        { count := 2 ^ 63 - 1, iter := ([] : List Int) }).1.count ≠
      (2 ^ 63 - 1 : Int) + 1 := by
  decide

/-- C6 (amended): every iternext call on an Enumerate value stores back
the intp-wrapped value of counter plus one, whatever the source result of
that round is (the store happens before the source query, mirrored by the
definition order of iternext_enumerate); the stored value equals counter
plus one whenever that sum lies in the intp range; and a valid source
result is paired with the original pre-increment counter value. -/
theorem enumerate_counter_increment (step : σ → σ × IterRes α) (e : EnumerateState σ) :
    (iternext_enumerate step e).1.count = wrapIntp (e.count + 1) ∧
    (-(2 ^ 63) ≤ e.count + 1 → e.count + 1 < 2 ^ 63 →
      (iternext_enumerate step e).1.count = e.count + 1) ∧
    (iternext_enumerate step e).2 =
      (match (step e.iter).2 with
       | IterRes.valid v => IterRes.valid (e.count, v)
       | IterRes.exhausted => IterRes.exhausted
       | IterRes.failure stc => IterRes.failure stc) := by
  have h1 : (iternext_enumerate step e).1.count = wrapIntp (e.count + 1) := by
    cases h : (step e.iter).2 <;> simp [iternext_enumerate, h]
  refine ⟨h1, fun hlo hhi => ?_, ?_⟩
  · rw [h1, wrapIntp_eq_self _ hlo hhi]
  · cases h : (step e.iter).2 <;> simp [iternext_enumerate, h]

/-- Witness for C6 at a concrete in-range state: counter 5 over source
[10] is stored back as 6 and the yielded pair carries the original 5. -/
theorem enumerate_counter_increment_witness :
    (iternext_enumerate listStep { count := 5, iter := ([10] : List Int) }).1.count =
      (6 : Int) ∧
    (iternext_enumerate listStep { count := 5, iter := ([10] : List Int) }).2 =
      IterRes.valid (5, 10) :=
  ⟨(enumerate_counter_increment listStep
      { count := 5, iter := ([10] : List Int) }).2.1 (by decide) (by decide),
   (enumerate_counter_increment listStep
      { count := 5, iter := ([10] : List Int) }).2.2⟩

/-- C5: the suspended-computation bridge maps the resume status Ok to
Valid carrying the produced value, Stopped to Exhausted, and Errored while
not simultaneously Stopped to a propagated failure that bypasses the
ordinary Valid and Exhausted channel. -/
theorem generator_status_mapping (stc : Status) (v : α) :
    (stc.is_ok = true → stc.is_stop_iteration = false → stc.is_error = false →
      genResult stc v = some (IterRes.valid v)) ∧
    (stc.is_stop_iteration = true → genResult stc v = some IterRes.exhausted) ∧
    (stc.is_error = true → stc.is_stop_iteration = false →
      genResult stc v = some (IterRes.failure stc)) := by
  rcases stc with ⟨ok, stp, er⟩
  cases ok <;> cases stp <;> cases er <;> simp [genResult]

/-- Witness for C5 at concrete statuses. -/
theorem generator_status_mapping_witness :
    genResult { is_ok := true, is_stop_iteration := false, is_error := false } (7 : Int) =
      some (IterRes.valid 7) ∧
    genResult { is_ok := false, is_stop_iteration := true, is_error := true } (7 : Int) =
      some IterRes.exhausted ∧
    genResult { is_ok := false, is_stop_iteration := false, is_error := true } (7 : Int) =
      some (IterRes.failure { is_ok := false, is_stop_iteration := false, is_error := true }) :=
  ⟨(generator_status_mapping { is_ok := true, is_stop_iteration := false, is_error := false } 7).1
      rfl rfl rfl,
   (generator_status_mapping { is_ok := false, is_stop_iteration := true, is_error := true } 7).2.1
      rfl,
   (generator_status_mapping { is_ok := false, is_stop_iteration := false, is_error := true } 7).2.2
      rfl rfl⟩

/-- C10: a resume status that is simultaneously Stopped and Errored makes
the bridge report Exhausted, and the fatal bypass producing a propagated
failure fires exactly when the status is Errored and not Stopped. -/
theorem generator_stop_overrides_error (stc : Status) (v : α) :
    (stc.is_stop_iteration = true → genResult stc v = some IterRes.exhausted) ∧
    (genResult stc v = some (IterRes.failure stc) ↔
      stc.is_error = true ∧ stc.is_stop_iteration = false) := by
  rcases stc with ⟨ok, stp, er⟩
  cases ok <;> cases stp <;> cases er <;> simp [genResult]

/-- Witness for C10: a Stopped and Errored status yields Exhausted, and an
Errored not Stopped status takes the fatal bypass. -/
theorem generator_stop_overrides_error_witness :
    genResult { is_ok := false, is_stop_iteration := true, is_error := true } (0 : Int) =
      some IterRes.exhausted ∧
    genResult { is_ok := false, is_stop_iteration := false, is_error := true } (0 : Int) =
      some (IterRes.failure { is_ok := false, is_stop_iteration := false, is_error := true }) :=
  ⟨(generator_stop_overrides_error { is_ok := false, is_stop_iteration := true, is_error := true }
      0).1 rfl,
   (generator_stop_overrides_error { is_ok := false, is_stop_iteration := false, is_error := true }
      0).2.mpr ⟨rfl, rfl⟩⟩

theorem range_map_shift (i n : Nat) :
    (List.range (n + 1)).map (fun k => i + k) =
      i :: (List.range n).map (fun k => (i + 1) + k) := by
  rw [List.range_succ_eq_map, List.map_cons, List.map_map]
  refine congrArg₂ List.cons (by simp) (List.map_congr_left ?_)
  intro a _
  simp [Function.comp]
  omega

theorem zipLoop_no_failure (srcs : List (Src σ α))
    (h : ∀ s ∈ srcs, isFailure (s.step s.st).2 = false) :
    zipLoop srcs = Sum.inl (srcs.map stepSrc,
      srcs.all (fun s => isValidRes (s.step s.st).2),
      srcs.map (fun s => yieldedValue (s.step s.st).2)) := by
  induction srcs with
  | nil => rfl
  | cons s rest ih =>
    have hs := h s (by simp)
    have hr : ∀ t ∈ rest, isFailure (t.step t.st).2 = false :=
      fun t ht => h t (by simp [ht])
    cases hc : (s.step s.st).2 with
    | failure stc => rw [hc] at hs; simp [isFailure] at hs
    | valid v =>
      simp [zipLoop, call_iternext, hc, ih hr, stepSrc]
    | exhausted =>
      simp [zipLoop, call_iternext, hc, ih hr, stepSrc]

theorem zipLoopEvents_no_failure (srcs : List (Src σ α)) (i : Nat)
    (h : ∀ s ∈ srcs, isFailure (s.step s.st).2 = false) :
    zipLoopEvents i srcs =
      (zipLoop srcs, (List.range srcs.length).map (fun k => i + k)) := by
  induction srcs generalizing i with
  | nil => rfl
  | cons s rest ih =>
    have hs := h s (by simp)
    have hr : ∀ t ∈ rest, isFailure (t.step t.st).2 = false :=
      fun t ht => h t (by simp [ht])
    rw [List.length_cons, range_map_shift]
    cases hc : (s.step s.st).2 with
    | failure stc => rw [hc] at hs; simp [isFailure] at hs
    | valid v =>
      simp [zipLoop, zipLoopEvents, call_iternext, hc, ih (i + 1) hr,
        zipLoop_no_failure rest hr, stepSrc]
    | exhausted =>
      simp [zipLoop, zipLoopEvents, call_iternext, hc, ih (i + 1) hr,
        zipLoop_no_failure rest hr, stepSrc]

theorem zipLoopEvents_failure (pre post : List (Src σ α)) (sf : Src σ α)
    (stc : Status) (i : Nat)
    (hpre : ∀ s ∈ pre, isFailure (s.step s.st).2 = false)
    (hf : (sf.step sf.st).2 = IterRes.failure stc) :
    zipLoopEvents i (pre ++ sf :: post) =
      (Sum.inr stc, (List.range (pre.length + 1)).map (fun k => i + k)) := by
  induction pre generalizing i with
  | nil =>
    simp [zipLoopEvents, call_iternext, hf, List.range_succ]
  | cons s rest ih =>
    have hs := hpre s (by simp)
    have hr : ∀ t ∈ rest, isFailure (t.step t.st).2 = false :=
      fun t ht => hpre t (by simp [ht])
    rw [List.length_cons, range_map_shift]
    cases hc : (s.step s.st).2 with
    | failure st2 => rw [hc] at hs; simp [isFailure] at hs
    | valid v =>
      simp [zipLoopEvents, call_iternext, hc, ih (i + 1) hr]
    | exhausted =>
      simp [zipLoopEvents, call_iternext, hc, ih (i + 1) hr]

/-- C3: one iternext call on a lockstep combinator with at least one source
invokes call_iternext on every source exactly once, in index order 0 to
N - 1, even when a source earlier in the round has already reported
Exhausted: the recorded invocation order is exactly the index range, every
resulting source state is its input state stepped once, the combined round
validity is the boolean and of the per-source validities, and the round
never turns a non-failing round into a failure.  Stated for rounds in
which no source propagates a failure; the failure case is claim C4. -/
theorem zip_advances_every_source (srcs : List (Src σ α)) (h0 : srcs ≠ [])
    (h : ∀ s ∈ srcs, isFailure (s.step s.st).2 = false) :
    (iternext_zip_events srcs).2 = List.range srcs.length ∧
    (iternext_zip_events srcs).1.1.map (fun s => s.st) =
      srcs.map (fun s => (s.step s.st).1) ∧
    isValidRes (iternext_zip_events srcs).1.2 =
      srcs.all (fun s => isValidRes (s.step s.st).2) ∧
    isFailure (iternext_zip_events srcs).1.2 = false := by
  cases srcs with
  | nil => exact absurd rfl h0
  | cons s rest =>
    rw [iternext_zip_events, zipLoopEvents_no_failure _ _ h,
      zipLoop_no_failure _ h]
    cases hall : (s :: rest).all (fun s => isValidRes (s.step s.st).2) <;>
      simp [hall, List.map_map, stepSrc, call_iternext, isValidRes, isFailure]

/-- Witness for C3: two sources, the second already exhausted; both are
still invoked, in order, and the round validity is false. -/
theorem zip_advances_every_source_witness :
    (iternext_zip_events [listSrc [1], listSrc ([] : List Int)]).2 = List.range 2 ∧
    (iternext_zip_events [listSrc [1], listSrc ([] : List Int)]).1.1.map
        (fun s => s.st) = [[], []] ∧
    isValidRes (iternext_zip_events [listSrc [1], listSrc ([] : List Int)]).1.2 =
      [listSrc [1], listSrc ([] : List Int)].all
        (fun s => isValidRes (s.step s.st).2) ∧
    isFailure (iternext_zip_events [listSrc [1], listSrc ([] : List Int)]).1.2 =
      false :=
  zip_advances_every_source [listSrc [1], listSrc ([] : List Int)]
    (List.cons_ne_nil _ _)
    (by simp [listSrc, listStep, isFailure])

/-- C4: when a source call inside a combinator round propagates a failure,
the combinator forwards that failure unchanged at once: the lockstep
combinator returns exactly that failure, the recorded invocations stop at
the failing source so the remaining sources are never invoked and no
combined validity is evaluated, and the indexed combinator likewise
forwards a source failure unchanged, never mapping it to Valid or
Exhausted. -/
theorem combinator_forwards_failure (pre post : List (Src σ α)) (sf : Src σ α)
    (stc : Status) (e : EnumerateState σ) (estep : σ → σ × IterRes α)
    (hpre : ∀ s ∈ pre, isFailure (s.step s.st).2 = false)
    (hf : (sf.step sf.st).2 = IterRes.failure stc)
    (he : (estep e.iter).2 = IterRes.failure stc) :
    (iternext_zip_events (pre ++ sf :: post)).1.2 = IterRes.failure stc ∧
    (iternext_zip_events (pre ++ sf :: post)).2 = List.range (pre.length + 1) ∧
    (iternext_enumerate estep e).2 = IterRes.failure stc := by
  have hne : (pre ++ sf :: post).isEmpty = false := by
    cases pre <;> rfl
  rw [iternext_zip_events, hne, zipLoopEvents_failure pre post sf stc 0 hpre hf]
  refine ⟨rfl, by simp, ?_⟩
  simp [iternext_enumerate, he]

/-- Witness for C4: three sources over unit state, the middle one failing;
the failure status is forwarded and only the first two sources are
invoked, and an enumerate wrapper over the failing source forwards the
same failure. -/
theorem combinator_forwards_failure_witness :
    (iternext_zip_events
        [{ st := (), step := fun s => (s, IterRes.valid (1 : Int)) },
         { st := (), step := fun s =>
            (s, IterRes.failure
              { is_ok := false, is_stop_iteration := false, is_error := true }) },
         { st := (), step := fun s => (s, IterRes.valid (3 : Int)) }]).1.2 =
      IterRes.failure { is_ok := false, is_stop_iteration := false, is_error := true } ∧
    (iternext_zip_events
        [{ st := (), step := fun s => (s, IterRes.valid (1 : Int)) },
         { st := (), step := fun s =>
            (s, IterRes.failure
              { is_ok := false, is_stop_iteration := false, is_error := true }) },
         { st := (), step := fun s => (s, IterRes.valid (3 : Int)) }]).2 =
      List.range 2 ∧
    (iternext_enumerate
        (fun s => (s, (IterRes.failure
          { is_ok := false, is_stop_iteration := false, is_error := true } : IterRes Int)))
        { count := 0, iter := () }).2 =
      IterRes.failure { is_ok := false, is_stop_iteration := false, is_error := true } :=
  combinator_forwards_failure
    [{ st := (), step := fun s => (s, IterRes.valid (1 : Int)) }]
    [{ st := (), step := fun s => (s, IterRes.valid (3 : Int)) }]
    { st := (), step := fun s =>
        (s, IterRes.failure
          { is_ok := false, is_stop_iteration := false, is_error := true }) }
    { is_ok := false, is_stop_iteration := false, is_error := true }
    { count := 0, iter := () }
    (fun s => (s, (IterRes.failure
      { is_ok := false, is_stop_iteration := false, is_error := true } : IterRes Int)))
    (by simp [isFailure])
    rfl
    rfl

theorem enumExpected_cons (c : Int) (d : α) (x : α) (xs : List α) :
    enumExpected c d (x :: xs) = (c, x) :: enumExpected (c + 1) d xs := by
  unfold enumExpected
  rw [List.length_cons, List.range_succ_eq_map, List.map_cons, List.map_map]
  refine congrArg₂ List.cons (by simp) (List.map_congr_left ?_)
  intro a _
  simp [Function.comp]
  omega

theorem enum_run_aux (d : α) (S : List α) (c : Int) (fuel : Nat)
    (hf : S.length < fuel) (hlo : -(2 ^ 63) ≤ c)
    (hhi : c + S.length < 2 ^ 63) :
    runIter (iternext_enumerate listStep) fuel { count := c, iter := S } =
      some (enumExpected c d S, IterRes.exhausted) := by
  induction S generalizing c fuel with
  | nil =>
    cases fuel with
    | zero => omega
    | succ f => simp [runIter, iternext_enumerate, listStep, enumExpected]
  | cons x xs ih =>
    cases fuel with
    | zero => omega
    | succ f =>
      have h2 : xs.length < f := by
        simp only [List.length_cons] at hf
        omega
      have hlen : (0 : Int) ≤ (xs.length : Int) := Int.ofNat_nonneg _
      have hhi2 : c + 1 + (xs.length : Int) < 2 ^ 63 := by
        simp only [List.length_cons] at hhi
        push_cast at hhi
        omega
      have hw : wrapIntp (c + 1) = c + 1 :=
        wrapIntp_eq_self _ (by omega) (by omega)
      rw [enumExpected_cons]
      simp [runIter, iternext_enumerate, listStep, hw,
        ih (c + 1) f h2 (by omega) hhi2]

/-- Counterexample to C1 as stated for every starting integer: the counter
is a wrapping types.intp, so at start 2 ^ 63 - 1 over [10, 20] the second
yielded pair carries the wrapped index -(2 ^ 63) instead of s0 + 1, and
the run differs from the claimed pair list. -/
theorem enumerate_wraps_at_intp_max :
    runIter (iternext_enumerate listStep) 3
        (make_enumerate_object [10, 20] (some (2 ^ 63 - 1))) ≠
      some (enumExpected (2 ^ 63 - 1) (0 : Int) [10, 20], IterRes.exhausted) := by
  decide

/-- C1 (amended): over a list-backed source S with start s0, the indexed
combinator yields exactly the pairs (s0 + i, S[i]) for each index i of S,
in order, and then reports Exhausted, provided the driver has enough fuel
to reach the exhaustion round and every counter value of the run stays in
the types.intp range, that is -(2 ^ 63) ≤ s0 and s0 + len(S) < 2 ^ 63. -/
theorem enumerate_yields_indexed_pairs (d : α) (S : List α) (s0 : Int)
    (fuel : Nat) (hf : S.length < fuel) (hlo : -(2 ^ 63) ≤ s0)
    (hhi : s0 + S.length < 2 ^ 63) :
    runIter (iternext_enumerate listStep) fuel (make_enumerate_object S (some s0)) =
      some (enumExpected s0 d S, IterRes.exhausted) := by
  have hlen : (0 : Int) ≤ (S.length : Int) := Int.ofNat_nonneg _
  have hs : wrapIntp s0 = s0 := wrapIntp_eq_self _ hlo (by omega)
  have hmk : make_enumerate_object S (some s0) = { count := s0, iter := S } := by
    simp [make_enumerate_object, iterator_getiter, RetKind.val, hs]
  rw [hmk]
  exact enum_run_aux d S s0 fuel hf hlo hhi

/-- Witness for C1, concrete scenario A of the spec: source [10, 20, 30]
with start 5 yields (5, 10), (6, 20), (7, 30), then Exhausted. -/
theorem enumerate_yields_indexed_pairs_witness :
    runIter (iternext_enumerate listStep) 4
        (make_enumerate_object [10, 20, 30] (some 5)) =
      some ([((5 : Int), (10 : Int)), (6, 20), (7, 30)], IterRes.exhausted) :=
  enumerate_yields_indexed_pairs 0 [10, 20, 30] 5 4 (by decide) (by decide)
    (by decide)

theorem minLen_singleton (L : List α) : minLen [L] = L.length := rfl

theorem minLen_cons_cons (L r : List α) (rs : List (List α)) :
    minLen (L :: r :: rs) = min L.length (minLen (r :: rs)) := rfl

theorem minLen_eq_zero (Ls : List (List α)) (h : ∃ L ∈ Ls, L = []) :
    minLen Ls = 0 := by
  induction Ls with
  | nil => simp at h
  | cons L rest ih =>
    rcases h with ⟨M, hM, hMe⟩
    rcases List.mem_cons.mp hM with h1 | h2
    · subst h1
      subst hMe
      cases rest with
      | nil => rfl
      | cons r rs => rw [minLen_cons_cons]; simp
    · have hz := ih ⟨M, h2, hMe⟩
      cases rest with
      | nil => simp at h2
      | cons r rs => rw [minLen_cons_cons, hz]; simp

theorem minLen_pos (Ls : List (List α)) (h0 : Ls ≠ []) (h : ∀ L ∈ Ls, L ≠ []) :
    0 < minLen Ls := by
  induction Ls with
  | nil => exact absurd rfl h0
  | cons L rest ih =>
    have hlen : 0 < L.length := List.length_pos.mpr (h L (by simp))
    cases rest with
    | nil => simpa [minLen_singleton] using hlen
    | cons r rs =>
      have hr := ih (by simp) (fun t ht => h t (by simp [ht]))
      rw [minLen_cons_cons]
      omega

theorem minLen_tail (Ls : List (List α)) (h : ∀ L ∈ Ls, L ≠ []) :
    minLen (Ls.map List.tail) = minLen Ls - 1 := by
  induction Ls with
  | nil => rfl
  | cons L rest ih =>
    have htl : L.tail.length = L.length - 1 := by simp [List.length_tail]
    cases rest with
    | nil => simp [minLen_singleton, htl]
    | cons r rs =>
      have ih2 := ih (fun t ht => h t (by simp [ht]))
      have hsh : minLen ((L :: r :: rs).map List.tail) =
          min L.tail.length (minLen ((r :: rs).map List.tail)) := by
        simp only [List.map_cons]
        exact minLen_cons_cons _ _ _
      rw [hsh, ih2, minLen_cons_cons, htl]
      omega

theorem zipExpected_of_empty_mem (d : α) (Ls : List (List α))
    (h : ∃ L ∈ Ls, L = []) : zipExpected d Ls = [] := by
  simp [zipExpected, minLen_eq_zero Ls h]

theorem zipExpected_cons (d : α) (Ls : List (List α)) (h0 : Ls ≠ [])
    (h : ∀ L ∈ Ls, L ≠ []) :
    zipExpected d Ls =
      (Ls.map (fun L => L.headD d)) :: zipExpected d (Ls.map List.tail) := by
  have hm : minLen Ls = minLen (Ls.map List.tail) + 1 := by
    rw [minLen_tail Ls h]
    have := minLen_pos Ls h0 h
    omega
  unfold zipExpected
  rw [hm, List.range_succ_eq_map, List.map_cons, List.map_map]
  refine congrArg₂ List.cons ?_ ?_
  · refine List.map_congr_left ?_
    intro L hL
    have hne := h L hL
    cases L with
    | nil => exact absurd rfl hne
    | cons x xs => rfl
  · refine List.map_congr_left ?_
    intro a _
    simp only [Function.comp, List.map_map]
    refine List.map_congr_left ?_
    intro L hL
    have hne := h L hL
    cases L with
    | nil => exact absurd rfl hne
    | cons x xs => rfl

theorem zipLoop_listSrc (Ls : List (List α)) :
    zipLoop (Ls.map listSrc) =
      Sum.inl (Ls.map (fun L => listSrc L.tail),
        Ls.all (fun L => !L.isEmpty),
        Ls.map (fun L => L.head?)) := by
  induction Ls with
  | nil => rfl
  | cons L rest ih =>
    cases L with
    | nil =>
      simp [zipLoop, call_iternext, listSrc, listStep, ih, isValidRes, yieldedValue]
    | cons x xs =>
      simp [zipLoop, call_iternext, listSrc, listStep, ih, isValidRes, yieldedValue]

theorem filterMap_heads (d : α) (Ls : List (List α)) (h : ∀ L ∈ Ls, L ≠ []) :
    (Ls.map (fun L => L.head?)).filterMap id = Ls.map (fun L => L.headD d) := by
  induction Ls with
  | nil => rfl
  | cons L rest ih =>
    have hr : ∀ t ∈ rest, t ≠ [] := fun t ht => h t (by simp [ht])
    have hne := h L (by simp)
    cases L with
    | nil => exact absurd rfl hne
    | cons x xs => simp [ih hr]

theorem iternext_zip_listSrc_valid (d : α) (Ls : List (List α)) (h0 : Ls ≠ [])
    (h : ∀ L ∈ Ls, L ≠ []) :
    iternext_zip (Ls.map listSrc) =
      ((Ls.map List.tail).map listSrc,
        IterRes.valid (Ls.map (fun L => L.headD d))) := by
  have hne : (Ls.map listSrc).isEmpty = false := by
    cases Ls with
    | nil => exact absurd rfl h0
    | cons a b => rfl
  have hall : Ls.all (fun L => !L.isEmpty) = true := by
    rw [List.all_eq_true]
    intro L hL
    simpa using h L hL
  simp [iternext_zip, hne, zipLoop_listSrc, hall, filterMap_heads d Ls h,
    List.map_map, listSrc, Function.comp]

theorem iternext_zip_listSrc_exhausted (Ls : List (List α)) (h0 : Ls ≠ [])
    (h : ∃ L ∈ Ls, L = []) :
    (iternext_zip (Ls.map listSrc)).2 = IterRes.exhausted := by
  have hne : (Ls.map listSrc).isEmpty = false := by
    cases Ls with
    | nil => exact absurd rfl h0
    | cons a b => rfl
  have hall : Ls.all (fun L => !L.isEmpty) = false := by
    rcases h with ⟨L, hL, rfl⟩
    simp [List.all_eq_false]
    exact hL
  simp [iternext_zip, hne, zipLoop_listSrc, hall]

theorem zip_run_aux (d : α) (fuel : Nat) (Ls : List (List α)) (h0 : Ls ≠ [])
    (hf : minLen Ls < fuel) :
    runIter iternext_zip fuel (Ls.map listSrc) =
      some (zipExpected d Ls, IterRes.exhausted) := by
  induction fuel generalizing Ls with
  | zero => omega
  | succ f ih =>
    by_cases hall : ∀ L ∈ Ls, L ≠ []
    · have hpos := minLen_pos Ls h0 hall
      have h2 : minLen (Ls.map List.tail) < f := by
        rw [minLen_tail Ls hall]
        omega
      have h0t : Ls.map List.tail ≠ [] := by
        cases Ls with
        | nil => exact absurd rfl h0
        | cons a b => simp
      rw [zipExpected_cons d Ls h0 hall]
      simp only [runIter, iternext_zip_listSrc_valid d Ls h0 hall]
      rw [ih (Ls.map List.tail) h0t h2]
      rfl
    · push_neg at hall
      rw [zipExpected_of_empty_mem d Ls hall]
      simp [runIter, iternext_zip_listSrc_exhausted Ls h0 hall]

/-- C2: over list-backed sources S1 .. Sn with n at least 1, the lockstep
combinator yields exactly minLen many Valid tuples, the i-th tuple being
the list of the i-th element of every source in source order, and then
reports Exhausted, provided the driver has enough fuel to reach the
exhaustion round. -/
theorem zip_yields_lockstep (d : α) (Ls : List (List α)) (h0 : Ls ≠ [])
    (fuel : Nat) (hf : minLen Ls < fuel) :
    runIter iternext_zip fuel (make_zip_object (Ls.map listSrc)) =
      some (zipExpected d Ls, IterRes.exhausted) ∧
    (zipExpected d Ls).length = minLen Ls :=
  ⟨zip_run_aux d fuel Ls h0 hf, by simp [zipExpected]⟩

/-- Witness for C2, concrete scenario B of the spec: sources [1, 2, 3] and
[9, 8] yield (1, 9) then (2, 8), then Exhausted; exactly two tuples. -/
theorem zip_yields_lockstep_witness :
    runIter iternext_zip 3 (make_zip_object ([[1, 2, 3], [9, 8]].map listSrc)) =
      some ([[(1 : Int), 9], [2, 8]], IterRes.exhausted) ∧
    (zipExpected (0 : Int) [[1, 2, 3], [9, 8]]).length = 2 :=
  zip_yields_lockstep 0 [[1, 2, 3], [9, 8]] (by decide) 3 (by decide)

end NumbaIterators
